import Mathlib

/-!
Shallow embedding of the Taurus codec subsystem
(`src/lib/taurus/core/util/codecs.py`).

Envelopes are pairs `(format, payload)`.  Python 2 `str` values (which double
as byte strings) are modelled as Lean `String`; other Python values appearing
as payloads are modelled by the inductive type `PyVal`.
-/

namespace Taurus

/-- Lower-case an ASCII character (used to model the case-insensitive
`CaselessDict` key normalisation). -/
def lcChar (c : Char) : Char :=
  if 'A' ≤ c ∧ c ≤ 'Z' then Char.ofNat (c.toNat + 32) else c

/-- Lower-case a string. -/
def lcs (s : String) : String := ⟨s.data.map lcChar⟩

/-- Python `s.startswith(pre)`. -/
def swith (s pre : String) : Bool := pre.data.isPrefixOf s.data

/-- Everything after the first `'_'`; empty if there is none.
Models Python `s.partition('_')[2]`. -/
def afterUnderscoreCs : List Char → List Char
  | [] => []
  | c :: rest => if c = '_' then rest else afterUnderscoreCs rest

/-- String version of `afterUnderscoreCs`. -/
def afterUnderscore (s : String) : String := ⟨afterUnderscoreCs s.data⟩

/-- Python `s.split('_')` on character lists. -/
def splitUcs : List Char → List (List Char)
  | [] => [[]]
  | c :: rest =>
    let r := splitUcs rest
    if c = '_' then [] :: r
    else
      match r with
      | [] => [[c]]
      | g :: gs => (c :: g) :: gs

/-- Python `s.split('_')`. -/
def splitU (s : String) : List String := (splitUcs s.data).map String.mk

/-- Model of the dynamic Python values flowing through the codecs:
Python 2 `str` (= bytes), ints, booleans, `None`, lists, tuples and
string-keyed dicts. -/
inductive PyVal where
  | vnone : PyVal
  | vbool (b : Bool) : PyVal
  | vint (n : Int) : PyVal
  | vstr (s : String) : PyVal
  | vlist (xs : List PyVal) : PyVal
  | vtuple (xs : List PyVal) : PyVal
  | vdict (kvs : List (String × PyVal)) : PyVal

/-- The `(format, data)` pair every codec operates on. -/
def Envelope : Type := String × PyVal

/-- Tag composition shared by the zip, bz2 and json `encode` methods:
`format = '<algo>'; if len(data[0]): format += '_%s' % data[0]`. -/
def composeTag (algo fmt : String) : String :=
  if fmt.data = [] then algo else algo ++ "_" ++ fmt

/-! ## JSON serialization (the `taurus.core.util.json` module)

The `json` module the codec imports is repository code that is not under
`src/`; `dumps` and `loads` below are therefore modelled from the spec. -/

/-- The decimal digit character for `n < 10`. -/
def digitChar (n : Nat) : Char := Char.ofNat (48 + n)

/-- Fuel-driven decimal rendering of a natural number (most significant
digit first); any `fuel > n` gives the full rendering. -/
def natToCharsAux : Nat → Nat → List Char
  | 0, _ => []
  | fuel+1, n =>
    if n < 10 then [digitChar n]
    else natToCharsAux fuel (n / 10) ++ [digitChar (n % 10)]

/-- Decimal rendering of a natural number. -/
def natToChars (n : Nat) : List Char := natToCharsAux (n + 1) n

/-- Decimal rendering of an integer (Python `str`-style). -/
def intToChars : Int → List Char
  | .ofNat m => natToChars m
  | .negSucc m => '-' :: natToChars (m + 1)

/-- Escape a character for a JSON string literal. -/
def escChar (c : Char) : List Char :=
  if c = '"' ∨ c = '\\' then ['\\', c] else [c]

/-- Escape a character list for a JSON string literal. -/
def escStr : List Char → List Char
  | [] => []
  | c :: rest => escChar c ++ escStr rest

mutual
/-- Modelled from the spec: compact textual serialization of a structured
value (`json.dumps` with separators `(',', ':')`, i.e. no extraneous
whitespace); the repository's `json` module is not under `src/`. -/
def dumpsCs : PyVal → List Char
  | .vnone => ['n', 'u', 'l', 'l']
  | .vbool true => ['t', 'r', 'u', 'e']
  | .vbool false => ['f', 'a', 'l', 's', 'e']
  | .vint n => intToChars n
  | .vstr s => '"' :: (escStr s.data ++ ['"'])
  | .vlist xs => '[' :: (dumpsElems xs ++ [']'])
  | .vtuple xs => '[' :: (dumpsElems xs ++ [']'])
  | .vdict kvs => '{' :: (dumpsFields kvs ++ ['}'])

/-- Comma-separated serialization of array elements. -/
def dumpsElems : List PyVal → List Char
  | [] => []
  | [x] => dumpsCs x
  | x :: y :: rest => dumpsCs x ++ ',' :: dumpsElems (y :: rest)

/-- Comma-separated serialization of object fields. -/
def dumpsFields : List (String × PyVal) → List Char
  | [] => []
  | [(k, v)] => '"' :: (escStr k.data ++ '"' :: ':' :: dumpsCs v)
  | (k, v) :: f :: rest =>
    ('"' :: (escStr k.data ++ '"' :: ':' :: dumpsCs v)) ++ ',' :: dumpsFields (f :: rest)
end

/-- Modelled from the spec: `json.dumps` in compact mode. -/
def dumps (v : PyVal) : String := ⟨dumpsCs v⟩

/-- Is `c` a decimal digit? -/
def isDigitC (c : Char) : Bool := 48 ≤ c.toNat && c.toNat ≤ 57

/-- Numeric value of a digit character. -/
def digitVal (c : Char) : Nat := c.toNat - 48

/-- Consume a run of digit characters, accumulating their value. -/
def parseDigits : List Char → Nat → Nat × List Char
  | [], acc => (acc, [])
  | c :: rest, acc =>
    if isDigitC c then parseDigits rest (acc * 10 + digitVal c)
    else (acc, c :: rest)

/-- Parse the body of a JSON string literal (after the opening quote),
returning the unescaped content and the input after the closing quote. -/
def parseStr : List Char → Option (List Char × List Char)
  | [] => none
  | c :: rest =>
    if c = '"' then some ([], rest)
    else if c = '\\' then
      match rest with
      | [] => none
      | c2 :: rest2 => (parseStr rest2).map fun p => (c2 :: p.1, p.2)
    else (parseStr rest).map fun p => (c :: p.1, p.2)

mutual
/-- Modelled from the spec: recursive-descent parser for the compact JSON
form, with explicit fuel bounding the nesting of recursive calls. -/
def parseVal : Nat → List Char → Option (PyVal × List Char)
  | 0, _ => none
  | _+1, [] => none
  | fuel+1, c :: cs =>
    if c = 'n' then
      match cs with
      | 'u' :: 'l' :: 'l' :: rest => some (.vnone, rest)
      | _ => none
    else if c = 't' then
      match cs with
      | 'r' :: 'u' :: 'e' :: rest => some (.vbool true, rest)
      | _ => none
    else if c = 'f' then
      match cs with
      | 'a' :: 'l' :: 's' :: 'e' :: rest => some (.vbool false, rest)
      | _ => none
    else if c = '"' then
      (parseStr cs).map fun p => (.vstr ⟨p.1⟩, p.2)
    else if c = '[' then
      if cs.head? = some ']' then some (.vlist [], cs.tail)
      else (parseElems fuel cs).map fun p => (.vlist p.1, p.2)
    else if c = '{' then
      if cs.head? = some '}' then some (.vdict [], cs.tail)
      else (parseFields fuel cs).map fun p => (.vdict p.1, p.2)
    else if c = '-' then
      match cs with
      | c2 :: rest =>
        if isDigitC c2 then
          let p := parseDigits rest (digitVal c2)
          some (.vint (-(p.1 : Int)), p.2)
        else none
      | [] => none
    else if isDigitC c then
      let p := parseDigits cs (digitVal c)
      some (.vint (p.1 : Int), p.2)
    else none

/-- Parse one or more comma-separated values followed by `']'`. -/
def parseElems : Nat → List Char → Option (List PyVal × List Char)
  | 0, _ => none
  | fuel+1, cs =>
    (parseVal fuel cs).bind fun p =>
      match p.2 with
      | ',' :: r2 => (parseElems fuel r2).map fun q => (p.1 :: q.1, q.2)
      | ']' :: r2 => some ([p.1], r2)
      | _ => none

/-- Parse one or more comma-separated string-keyed fields followed by `'}'`. -/
def parseFields : Nat → List Char → Option (List (String × PyVal) × List Char)
  | 0, _ => none
  | _+1, [] => none
  | fuel+1, c :: cs =>
    if c = '"' then
      (parseStr cs).bind fun ks =>
        match ks.2 with
        | ':' :: r2 =>
          (parseVal fuel r2).bind fun vp =>
            match vp.2 with
            | ',' :: r4 => (parseFields fuel r4).map fun fs => ((⟨ks.1⟩, vp.1) :: fs.1, fs.2)
            | '}' :: r4 => some ([(⟨ks.1⟩, vp.1)], r4)
            | _ => none
        | _ => none
    else none
end

/-- Modelled from the spec: `json.loads`; parses the compact textual form
back into a structured value, failing on malformed input or trailing
garbage. -/
def loads (s : String) : Option PyVal :=
  match parseVal (s.data.length + 1) s.data with
  | some (v, []) => some v
  | _ => none

/-! ## The concrete codecs (`codecs.py`) -/

/-- The external compression library functions the compression codecs call
(`zlib` and `bz2` are Python standard-library modules, outside this
repository).  Decompression may fail on corrupt input. -/
structure Ext where
  zlibCompress : String → String
  zlibDecompress : String → Option String
  bz2Compress : String → String
  bz2Decompress : String → Option String

/-- `ZIPCodec.encode`: compress the payload (which must be a raw string,
otherwise `zlib.compress` raises) and prepend `zip` to the tag. -/
def zipEncode (ext : Ext) (e : Envelope) : Option Envelope :=
  match e.2 with
  | .vstr s => some (composeTag "zip" e.1, .vstr (ext.zlibCompress s))
  | _ => none

/-- `ZIPCodec.decode`: pass through unless the tag starts with `zip`;
otherwise decompress and keep everything after the first underscore. -/
def zipDecode (ext : Ext) (e : Envelope) : Option Envelope :=
  if ¬ swith e.1 "zip" then some e
  else
    match e.2 with
    | .vstr s => (ext.zlibDecompress s).map fun d => (afterUnderscore e.1, .vstr d)
    | _ => none

/-- `BZ2Codec.encode`: compress the payload and prepend `bz2` to the tag. -/
def bz2Encode (ext : Ext) (e : Envelope) : Option Envelope :=
  match e.2 with
  | .vstr s => some (composeTag "bz2" e.1, .vstr (ext.bz2Compress s))
  | _ => none

/-- `BZ2Codec.decode`: pass through unless the tag starts with `bz2`;
otherwise decompress and keep everything after the first underscore. -/
def bz2Decode (ext : Ext) (e : Envelope) : Option Envelope :=
  if ¬ swith e.1 "bz2" then some e
  else
    match e.2 with
    | .vstr s => (ext.bz2Decompress s).map fun d => (afterUnderscore e.1, .vstr d)
    | _ => none

/-- `JSONCodec.encode`: serialize the payload compactly and prepend `json`
to the tag. -/
def jsonEncode (e : Envelope) : Envelope :=
  (composeTag "json" e.1, .vstr (dumps e.2))

/-- `JSONCodec.decode`: pass through unless the tag starts with `json`;
otherwise parse the payload (which must be a string; a `buffer` payload is
converted to a string first, covered here by `vstr`) and keep everything
after the first underscore.  Runs with the default `ensure_ascii = False`. -/
def jsonDecode (e : Envelope) : Option Envelope :=
  if ¬ swith e.1 "json" then some e
  else
    match e.2 with
    | .vstr s => (loads s).map fun v => (afterUnderscore e.1, v)
    | _ => none

/-- `FunctionCodec.encode`: wraps the *whole incoming envelope* `data` into
`{'type': name, 'data': data}` and returns tag `name` (the source passes
`data`, the two-element sequence, not `data[1]`). -/
def funcEncode (name : String) (e : Envelope) : Envelope :=
  (name, .vdict [("type", .vstr name), ("data", .vtuple [.vstr e.1, e.2])])

/-- `FunctionCodec.decode`: pass through unless the tag starts with `name`;
otherwise keep everything after the first underscore and leave the payload
untouched. -/
def funcDecode (name : String) (e : Envelope) : Option Envelope :=
  if ¬ swith e.1 name then some e
  else some (afterUnderscore e.1, e.2)

/-- `NullCodec.encode` / `NullCodec.decode`: identity. -/
def nullCode (e : Envelope) : Envelope := e

/-! ## The codec factory (`CodecFactory`) and pipelines (`CodecPipeline`)

Codec constructors registered in `CodecFactory.CODEC_MAP` (`PlotCodec` is
`FunctionCodec('plot')`). -/

inductive CodecKlass where
  | kjson : CodecKlass
  | kbz2 : CodecKlass
  | kzip : CodecKlass
  | kplot : CodecKlass
  | knull : CodecKlass
deriving DecidableEq

/-- A constructed codec object.  Each carries the allocation counter value
current at its construction, modelling Python object identity. -/
inductive CodecInst where
  | cnull (id : Nat) : CodecInst
  | czip (id : Nat) : CodecInst
  | cbz2 (id : Nat) : CodecInst
  | cjson (id : Nat) : CodecInst
  | cfunc (id : Nat) (name : String) : CodecInst
  | cpipeline (id : Nat) (stages : List CodecInst) : CodecInst

/-- The identity (allocation id) of a codec instance. -/
def instId : CodecInst → Nat
  | .cnull i => i
  | .czip i => i
  | .cbz2 i => i
  | .cjson i => i
  | .cfunc i _ => i
  | .cpipeline i _ => i

/-- Factory state: the class registry `_codec_klasses`, the instance cache
`_codecs` (both `CaselessDict`s, stored with lower-cased keys), and the
allocation counter for object identities. -/
structure FState where
  klasses : List (String × CodecKlass)
  codecs : List (String × CodecInst)
  nextId : Nat

/-- Modelled from the spec: case-insensitive lookup of `CaselessDict`
(`taurus.core.util.containers`, not under `src/`); keys are stored
lower-cased. -/
def cdLookup {α : Type} : List (String × α) → String → Option α
  | [], _ => none
  | (k', v) :: rest, k => if lcs k = k' then some v else cdLookup rest k

/-- Modelled from the spec: case-insensitive insert/overwrite of
`CaselessDict`. -/
def cdInsert {α : Type} : List (String × α) → String → α → List (String × α)
  | [], k, v => [(lcs k, v)]
  | (k', v') :: rest, k, v =>
    if lcs k = k' then (k', v) :: rest else (k', v') :: cdInsert rest k v

/-- Modelled from the spec: case-insensitive key removal of `CaselessDict`
(no-op when the key is absent, matching the guarded `del` call sites). -/
def cdErase {α : Type} : List (String × α) → String → List (String × α)
  | [], _ => []
  | (k', v') :: rest, k =>
    if lcs k = k' then rest else (k', v') :: cdErase rest k

/-- Instantiate a registered codec class, stamping the new object with the
given allocation id. -/
def instantiateK (k : CodecKlass) (id : Nat) : CodecInst :=
  match k with
  | .kjson => .cjson id
  | .kbz2 => .cbz2 id
  | .kzip => .czip id
  | .kplot => .cfunc id "plot"
  | .knull => .cnull id

/-- The factory state right after `CodecFactory.init`: the class registry is
a copy of `CODEC_MAP`, the instance cache is empty. -/
def initState : FState :=
  { klasses := [("json", .kjson), ("bz2", .kbz2), ("zip", .kzip),
                ("plot", .kplot), ("null", .knull), ("none", .knull),
                ("", .knull)],
    codecs := [],
    nextId := 0 }

/-- `CodecFactory.registerCodec`: insert/overwrite the class registry entry
and delete any cached instance for the tag. -/
def registerCodec (fmt : String) (k : CodecKlass) (s : FState) : FState :=
  { s with klasses := cdInsert s.klasses fmt k,
           codecs := cdErase s.codecs fmt }

/-- `CodecFactory.unregisterCodec`: delete the class registry entry and any
cached instance for the tag, each guarded by a `has_key` check, so a
never-registered tag is silently ignored (despite the docstring's
`:raises: KeyError`). -/
def unregisterCodec (fmt : String) (s : FState) : FState :=
  { s with klasses := cdErase s.klasses fmt, codecs := cdErase s.codecs fmt }

/-- The type of the factory's tag-resolution entry point, abstracted so the
pipeline constructor can call back into `getCodec`. -/
def FResolve : Type := String → FState → Except FState (CodecInst × FState)

/-- Resolve the pipeline's stage list, left to right, threading the factory
state; exceptions propagate.  `rec` is the factory's `getCodec`. -/
def buildStages (rec : FResolve) : List String → FState → Except FState (List CodecInst × FState)
  | [], s => .ok ([], s)
  | seg :: rest, s =>
    match rec seg s with
    | .ok (c, s') =>
      match buildStages rec rest s' with
      | .ok (cs, s'') => .ok (c :: cs, s'')
      | .error s'' => .error s''
    | .error s' => .error s'

/-- `CodecPipeline.__init__`: split the tag on `'_'` and resolve every
segment through the factory.  (The `codec is None` guard in the source is
unreachable here because `_getNewCodec` never returns `None`.) -/
def buildPipeline (rec : FResolve) (fmt : String) (s : FState) :
    Except FState (CodecInst × FState) :=
  match buildStages rec (splitU fmt) s with
  | .ok (cs, s') => .ok (.cpipeline s'.nextId cs, { s' with nextId := s'.nextId + 1 })
  | .error s' => .error s'

/-- `CodecFactory._getNewCodec`: instantiate a registered class if the tag
is an exact registry key; otherwise try building a `CodecPipeline`, and on
any exception fall back to instantiating the class registered for `''`
(`NullCodec` unless it was unregistered, in which case calling `None`
raises). -/
def getNewCodec (rec : FResolve) (fmt : String) (s : FState) :
    Except FState (CodecInst × FState) :=
  match cdLookup s.klasses fmt with
  | some k => .ok (instantiateK k s.nextId, { s with nextId := s.nextId + 1 })
  | none =>
    match buildPipeline rec fmt s with
    | .ok (c, s') => .ok (c, s')
    | .error s' =>
      match cdLookup s'.klasses "" with
      | some k => .ok (instantiateK k s'.nextId, { s' with nextId := s'.nextId + 1 })
      | none => .error s'

/-- `CodecFactory.getCodec`: return the cached instance if present,
otherwise build a new codec and cache it.  The fuel models the Python call
stack: at fuel `0` the interpreter's recursion-depth error is raised
(`.error` carries the mutated state the exception propagates through). -/
def getCodec : Nat → String → FState → Except FState (CodecInst × FState)
  | 0, _, s => .error s
  | fuel+1, fmt, s =>
    match cdLookup s.codecs fmt with
    | some c => .ok (c, s)
    | none =>
      match getNewCodec (fun fm st => getCodec fuel fm st) fmt s with
      | .ok (c, s') => .ok (c, { s' with codecs := cdInsert s'.codecs fmt c })
      | .error s' => .error s'

mutual
/-- Dispatch `encode` on a codec instance.  `CodecPipeline.encode` folds
`encode` over the stage list in reverse order (`for codec in reversed(self)`). -/
def runEncode (ext : Ext) : CodecInst → Envelope → Option Envelope
  | .cnull _, e => some e
  | .czip _, e => zipEncode ext e
  | .cbz2 _, e => bz2Encode ext e
  | .cjson _, e => some (jsonEncode e)
  | .cfunc _ name, e => some (funcEncode name e)
  | .cpipeline _ stages, e => runEncodeRev ext stages e

/-- Encode through a stage list in reverse declaration order: the stages
after the head run first, then the head. -/
def runEncodeRev (ext : Ext) : List CodecInst → Envelope → Option Envelope
  | [], e => some e
  | c :: rest, e =>
    match runEncodeRev ext rest e with
    | some e' => runEncode ext c e'
    | none => none

/-- Dispatch `decode` on a codec instance.  `CodecPipeline.decode` folds
`decode` over the stage list in forward order (`for codec in self`). -/
def runDecode (ext : Ext) : CodecInst → Envelope → Option Envelope
  | .cnull _, e => some e
  | .czip _, e => zipDecode ext e
  | .cbz2 _, e => bz2Decode ext e
  | .cjson _, e => jsonDecode e
  | .cfunc _ name, e => funcDecode name e
  | .cpipeline _ stages, e => runDecodeFwd ext stages e

/-- Decode through a stage list in forward declaration order. -/
def runDecodeFwd (ext : Ext) : List CodecInst → Envelope → Option Envelope
  | [], e => some e
  | c :: rest, e =>
    match runDecode ext c e with
    | some e' => runDecodeFwd ext rest e'
    | none => none
end

/-! ## Concrete instantiations used by witnesses -/

/-- A trivial compression backend: both compressors are the identity and
both decompressors always succeed with the input. -/
def idExt : Ext :=
  { zlibCompress := fun s => s
    zlibDecompress := fun s => some s
    bz2Compress := fun s => s
    bz2Decompress := fun s => some s }

/-- A compression backend that marks the stream with a leading tag byte;
decompression strips it and fails when it is absent, so the pair is a
mutual inverse with a genuinely failing decompressor. -/
def tagExt : Ext :=
  { zlibCompress := fun s => ⟨'Z' :: s.data⟩
    zlibDecompress := fun s =>
      match s.data with
      | 'Z' :: r => some ⟨r⟩
      | _ => none
    bz2Compress := fun s => ⟨'B' :: s.data⟩
    bz2Decompress := fun s =>
      match s.data with
      | 'B' :: r => some ⟨r⟩
      | _ => none }

/-! ## Predicates used by the verification -/

mutual
/-- Values representable in the serialization form: everything except
tuples (a tuple serializes like a list and parses back as a list). -/
def jsonable : PyVal → Bool
  | .vnone => true
  | .vbool _ => true
  | .vint _ => true
  | .vstr _ => true
  | .vtuple _ => false
  | .vlist xs => jsonableList xs
  | .vdict kvs => jsonableKVs kvs

/-- All elements are `jsonable`. -/
def jsonableList : List PyVal → Bool
  | [] => true
  | x :: xs => jsonable x && jsonableList xs

/-- All field values are `jsonable`. -/
def jsonableKVs : List (String × PyVal) → Bool
  | [] => true
  | (_, v) :: fs => jsonable v && jsonableKVs fs
end

/-- A trailing context a serialized number may be followed by without being
swallowed by the digit scanner: empty, or starting with a non-digit. -/
def delimOk : List Char → Bool
  | [] => true
  | c :: _ => !(isDigitC c)

mutual
/-- Fuel sufficient for `parseVal` to parse the serialization of a value. -/
def pfuel : PyVal → Nat
  | .vlist [] => 1
  | .vlist (x :: xs) => 1 + efuel (x :: xs)
  | .vdict [] => 1
  | .vdict (f :: fs) => 1 + ffuel (f :: fs)
  | _ => 1

/-- Fuel sufficient for `parseElems` on a serialized element list. -/
def efuel : List PyVal → Nat
  | [] => 1
  | x :: xs => 1 + max (pfuel x) (efuel xs)

/-- Fuel sufficient for `parseFields` on a serialized field list. -/
def ffuel : List (String × PyVal) → Nat
  | [] => 1
  | (_, v) :: fs => 1 + max (pfuel v) (ffuel fs)
end

/-- A codec object whose `encode` and `decode` both behave as the identity
on every envelope, for every compression backend. -/
def IsIdentity (c : CodecInst) : Prop :=
  ∀ ext e, runEncode ext c e = some e ∧ runDecode ext c e = some e

/-- A tag that the default class registry maps to `NullCodec` or to
nothing at all. -/
def fmtOK (t : String) : Prop :=
  cdLookup initState.klasses t = none ∨ cdLookup initState.klasses t = some .knull

/-- A tag none of whose registry hits (for the tag itself or any of its
underscore segments) is a non-null codec class. -/
def goodTag (t : String) : Prop :=
  fmtOK t ∧ ∀ seg ∈ splitU t, fmtOK seg

/-- Every cached codec instance behaves as the identity. -/
def cacheAllIdentity (s : FState) : Prop :=
  ∀ p ∈ s.codecs, IsIdentity p.2

/-- The factory-state well-formedness invariant: cache keys are distinct
(at most one cached instance per tag) and every cached instance was
allocated before the current counter value. -/
def Inv (s : FState) : Prop :=
  (s.codecs.map Prod.fst).Nodup ∧ ∀ p ∈ s.codecs, instId p.2 < s.nextId

/-- The factory state a resolution step leaves behind, whether it returned
normally or raised. -/
def resState {α : Type} : Except FState (α × FState) → FState
  | .ok (_, s) => s
  | .error s => s

/-! ## Helper lemmas about tags -/

theorem string_data_ne (a : String) (h : a ≠ "") : a.data ≠ [] := by
  intro hd
  apply h
  cases a with
  | mk d => cases hd; rfl

theorem afterUnderscoreCs_append (p : List Char) (r : List Char)
    (h : '_' ∉ p) : afterUnderscoreCs (p ++ '_' :: r) = r := by
  induction p with
  | nil => simp [afterUnderscoreCs]
  | cons c cs ih =>
    simp only [List.mem_cons, not_or] at h
    simp [afterUnderscoreCs, Ne.symm h.1, ih h.2]

theorem data_append3 (a b c : String) :
    (a ++ b ++ c).data = a.data ++ b.data ++ c.data := by
  simp [String.data_append]

theorem composeTag_empty (algo : String) : composeTag algo "" = algo := by
  simp [composeTag]

theorem composeTag_ne (algo fmt : String) (h : fmt ≠ "") :
    composeTag algo fmt = algo ++ "_" ++ fmt := by
  simp [composeTag, string_data_ne fmt h]

theorem swith_self_append (p r : String) : swith (p ++ r) p = true := by
  simp only [swith, String.data_append]
  exact List.isPrefixOf_iff_prefix.mpr (List.prefix_append _ _)

theorem swith_self (p : String) : swith p p = true := by
  simp [swith, List.isPrefixOf_iff_prefix]

theorem swith_algo_append (algo r : String) : swith (algo ++ "_" ++ r) algo = true := by
  simp only [swith, data_append3, List.append_assoc]
  exact List.isPrefixOf_iff_prefix.mpr (List.prefix_append _ _)

theorem afterUnderscore_prefix (algo r : String) (h : '_' ∉ algo.data) :
    afterUnderscore (algo ++ "_" ++ r) = r := by
  have hd : (algo ++ "_" ++ r).data = algo.data ++ '_' :: r.data := by
    simp [data_append3]
  show (⟨afterUnderscoreCs (algo ++ "_" ++ r).data⟩ : String) = r
  rw [hd, afterUnderscoreCs_append _ _ h]

theorem afterUnderscoreCs_no_underscore (cs : List Char) (h : '_' ∉ cs) :
    afterUnderscoreCs cs = [] := by
  induction cs with
  | nil => rfl
  | cons c rest ih =>
    simp only [List.mem_cons, not_or] at h
    simp [afterUnderscoreCs, Ne.symm h.1, ih h.2]

/-! ## Claim C5 -/

/-- Claim C5: for every concrete codec (zip, bz2, json and the
named-function codec with any name) and every envelope whose format tag
does not start with that codec's own tag prefix, that codec's `decode` is
a no-op returning the input envelope unchanged — format and payload — and
never an error; each conjunct only assumes the mismatch of its own codec,
so it covers the speculative-probing cases where another codec's tag is
present. -/
theorem decode_mismatch_is_noop (ext : Ext) (name : String) (e : Envelope) :
    (swith e.1 "zip" = false → zipDecode ext e = some e) ∧
    (swith e.1 "bz2" = false → bz2Decode ext e = some e) ∧
    (swith e.1 "json" = false → jsonDecode e = some e) ∧
    (swith e.1 name = false → funcDecode name e = some e) := by
  refine ⟨fun h => ?_, fun h => ?_, fun h => ?_, fun h => ?_⟩ <;>
    simp [zipDecode, bz2Decode, jsonDecode, funcDecode, h]

/-- Witness for C5: a zip-tagged envelope passes through the bz2, json and
plot codecs untouched — the cross-codec probing case — and a bz2-tagged
envelope passes through the zip codec. -/
theorem decode_mismatch_is_noop_witness :
    bz2Decode idExt ("zip_x", .vstr "p") = some ("zip_x", .vstr "p") ∧
    jsonDecode ("zip_x", .vstr "p") = some ("zip_x", .vstr "p") ∧
    funcDecode "plot" ("zip_x", .vstr "p") = some ("zip_x", .vstr "p") ∧
    zipDecode idExt ("bz2_y", .vstr "p") = some ("bz2_y", .vstr "p") := by
  have h1 := decode_mismatch_is_noop idExt "plot" ("zip_x", .vstr "p")
  have h2 := decode_mismatch_is_noop idExt "plot" ("bz2_y", .vstr "p")
  exact ⟨h1.2.1 (by decide), h1.2.2.1 (by decide), h1.2.2.2 (by decide),
    h2.1 (by decide)⟩

/-! ## Claim C6 -/

/-- Claim C6: the compression codecs' `encode` produces a result tag equal
to the algorithm name when the incoming tag is empty and
`<algo>_<incoming>` otherwise, the same composition rule the json codec
applies; their `decode`, on a matching tag (`<algo>` alone or
`<algo>_<rest>`), decompresses the payload and sets the result tag to what
remains after the `<algo>_` prefix — empty if nothing remains. -/
theorem compression_tag_composition (ext : Ext) (fmt r s : String) (v : PyVal)
    (h : fmt ≠ "") :
    (zipEncode ext ("", .vstr s) = some ("zip", .vstr (ext.zlibCompress s))) ∧
    (zipEncode ext (fmt, .vstr s) = some ("zip_" ++ fmt, .vstr (ext.zlibCompress s))) ∧
    (bz2Encode ext ("", .vstr s) = some ("bz2", .vstr (ext.bz2Compress s))) ∧
    (bz2Encode ext (fmt, .vstr s) = some ("bz2_" ++ fmt, .vstr (ext.bz2Compress s))) ∧
    (jsonEncode ("", v) = ("json", .vstr (dumps v))) ∧
    (jsonEncode (fmt, v) = ("json_" ++ fmt, .vstr (dumps v))) ∧
    (zipDecode ext ("zip", .vstr s) = (ext.zlibDecompress s).map fun d => ("", .vstr d)) ∧
    (zipDecode ext ("zip_" ++ r, .vstr s) = (ext.zlibDecompress s).map fun d => (r, .vstr d)) ∧
    (bz2Decode ext ("bz2", .vstr s) = (ext.bz2Decompress s).map fun d => ("", .vstr d)) ∧
    (bz2Decode ext ("bz2_" ++ r, .vstr s) = (ext.bz2Decompress s).map fun d => (r, .vstr d)) := by
  have hzip : composeTag "zip" fmt = "zip_" ++ fmt := by
    rw [composeTag_ne _ _ h]; rfl
  have hbz2 : composeTag "bz2" fmt = "bz2_" ++ fmt := by
    rw [composeTag_ne _ _ h]; rfl
  have hjson : composeTag "json" fmt = "json_" ++ fmt := by
    rw [composeTag_ne _ _ h]; rfl
  have hz : ("zip_" ++ r) = "zip" ++ "_" ++ r := rfl
  have hb : ("bz2_" ++ r) = "bz2" ++ "_" ++ r := rfl
  have haz : afterUnderscore "zip" = "" := rfl
  have hab : afterUnderscore "bz2" = "" := rfl
  refine ⟨?_, ?_, ?_, ?_, ?_, ?_, ?_, ?_, ?_, ?_⟩ <;>
    simp [zipEncode, bz2Encode, jsonEncode, zipDecode, bz2Decode,
      composeTag_empty, hzip, hbz2, hjson, hz, hb, haz, hab, swith_self,
      swith_algo_append,
      afterUnderscore_prefix _ _ (by decide : '_' ∉ ("zip" : String).data),
      afterUnderscore_prefix _ _ (by decide : '_' ∉ ("bz2" : String).data)]

/-- Witness for C6 at incoming tag `"json"`, inner tag `"x"` and payload
`"hi"`. -/
theorem compression_tag_composition_witness :
    zipEncode idExt ("json", .vstr "hi") = some ("zip_json", .vstr "hi") ∧
    zipDecode idExt ("zip_x", .vstr "hi") = some ("x", .vstr "hi") := by
  have h := compression_tag_composition idExt "json" "x" "hi" PyVal.vnone
    (by decide)
  exact ⟨h.2.1, by simpa using h.2.2.2.2.2.2.2.1⟩

/-! ## Claim C2 -/

/-- Claim C2: for every byte string `b` and each compression codec taken
alone, decoding the result of encoding reproduces `b` exactly —
`decode(encode(("", b))) == ("", b)` — assuming the underlying
compress/decompress pair are mutual inverses. -/
theorem compression_roundtrip (ext : Ext) (b : String)
    (hz : ∀ s, ext.zlibDecompress (ext.zlibCompress s) = some s)
    (hb : ∀ s, ext.bz2Decompress (ext.bz2Compress s) = some s) :
    (zipEncode ext ("", .vstr b)).bind (zipDecode ext) = some ("", .vstr b) ∧
    (bz2Encode ext ("", .vstr b)).bind (bz2Decode ext) = some ("", .vstr b) := by
  constructor
  · show (zipDecode ext (composeTag "zip" "", .vstr (ext.zlibCompress b))) = _
    simp [composeTag_empty, zipDecode, swith_self, hz]
    rfl
  · show (bz2Decode ext (composeTag "bz2" "", .vstr (ext.bz2Compress b))) = _
    simp [composeTag_empty, bz2Decode, swith_self, hb]
    rfl

/-- Witness for C2 with the marker-byte backend `tagExt` (a genuine mutual
inverse pair) and the byte string `"hello"`. -/
theorem compression_roundtrip_witness :
    (zipEncode tagExt ("", .vstr "hello")).bind (zipDecode tagExt) =
      some ("", .vstr "hello") ∧
    (bz2Encode tagExt ("", .vstr "hello")).bind (bz2Decode tagExt) =
      some ("", .vstr "hello") :=
  compression_roundtrip tagExt "hello" (fun _ => rfl) (fun _ => rfl)

/-! ## Claim C8 (corrected) -/

/-- Counterexample to claim C8 as stated: `FunctionCodec('plot').encode`
of payload `42` under tag `""` does not wrap the payload alone — the
record's `data` field holds the whole envelope tuple, not `42`. -/
theorem plot_encode_payload_cex :
    funcEncode "plot" ("", .vint 42) ≠
      ("plot", .vdict [("type", .vstr "plot"), ("data", .vint 42)]) := by
  intro h
  have h2 := congrArg Prod.snd h
  simp [funcEncode] at h2

/-- Claim C8 as amended: `encode` of payload `42` under tag `""` yields
`("plot", {"type": "plot", "data": ("", 42)})` — the whole input envelope,
not the payload alone, is wrapped in the record — and `decode` of that
envelope strips the tag but does not unwrap the record. -/
theorem plot_codec_scenario :
    funcEncode "plot" ("", .vint 42) =
      ("plot", .vdict [("type", .vstr "plot"),
                       ("data", .vtuple [.vstr "", .vint 42])]) ∧
    funcDecode "plot"
        ("plot", .vdict [("type", .vstr "plot"),
                         ("data", .vtuple [.vstr "", .vint 42])]) =
      some ("", .vdict [("type", .vstr "plot"),
                        ("data", .vtuple [.vstr "", .vint 42])]) :=
  ⟨rfl, rfl⟩

/-! ## Claim C9 (code bug) -/

/-- Claim C9 evaluated on the code: `unregisterCodec` on the
never-registered tag `"totally_unknown_xyz"` silently leaves the factory
state unchanged and raises nothing — contradicting both the claim and the
method's own `:raises: KeyError` docstring; for a registered tag it does
remove both the class-registry entry and the cached instance. -/
theorem unregisterCodec_behavior :
    unregisterCodec "totally_unknown_xyz" initState = initState ∧
    unregisterCodec "plot"
        { klasses := initState.klasses,
          codecs := [("plot", CodecInst.cfunc 0 "plot")], nextId := 1 } =
      { klasses := [("json", .kjson), ("bz2", .kbz2), ("zip", .kzip),
                    ("null", .knull), ("none", .knull), ("", .knull)],
        codecs := [], nextId := 1 } :=
  ⟨rfl, rfl⟩

/-! ## Claim C10 -/

/-- Claim C10: the decode applicability guard of the zip, bz2, json and
named-function codecs is a plain string-prefix test, not a whole-segment
test; any tag merely starting with the codec name is treated as matching,
the payload transformation is applied, and the result tag is everything
after the first underscore of the incoming tag — empty when the tag has no
underscore. -/
theorem decode_guard_is_plain_prefix_test (ext : Ext) (t s : String)
    (p : PyVal) (name : String) :
    (swith t "zip" = true →
      zipDecode ext (t, .vstr s) =
        (ext.zlibDecompress s).map fun d => (afterUnderscore t, .vstr d)) ∧
    (swith t "bz2" = true →
      bz2Decode ext (t, .vstr s) =
        (ext.bz2Decompress s).map fun d => (afterUnderscore t, .vstr d)) ∧
    (swith t "json" = true →
      jsonDecode (t, .vstr s) =
        (loads s).map fun v => (afterUnderscore t, v)) ∧
    (swith t name = true →
      funcDecode name (t, p) = some (afterUnderscore t, p)) ∧
    ('_' ∉ t.data → afterUnderscore t = "") := by
  refine ⟨fun h => ?_, fun h => ?_, fun h => ?_, fun h => ?_, fun h => ?_⟩
  · simp [zipDecode, h]
  · simp [bz2Decode, h]
  · simp [jsonDecode, h]
  · simp [funcDecode, h]
  · show (⟨afterUnderscoreCs t.data⟩ : String) = ""
    rw [afterUnderscoreCs_no_underscore _ h]

/-- Witness for C10 at the tag `"zipper"`, which merely starts with
`"zip"` without being that segment: the zip codec still decompresses and
returns the empty tag. -/
theorem decode_guard_is_plain_prefix_test_witness :
    zipDecode idExt ("zipper", .vstr "abc") = some ("", .vstr "abc") := by
  have h := decode_guard_is_plain_prefix_test idExt "zipper" "abc"
    PyVal.vnone "plot"
  have h1 := h.1 (by decide)
  have h5 := h.2.2.2.2 (by decide)
  rw [h1, h5]
  rfl

/-! ## Claim C1 -/

theorem optionFoldlM_append {α β : Type} (f : β → α → Option β)
    (l1 l2 : List α) (b : β) :
    List.foldlM f b (l1 ++ l2) =
      (List.foldlM f b l1).bind fun b' => List.foldlM f b' l2 := by
  induction l1 generalizing b with
  | nil => simp
  | cons a l1 ih =>
    simp only [List.cons_append, List.foldlM_cons]
    cases f b a with
    | none => simp [Option.bind, Bind.bind]
    | some b' => simp [ih, Option.bind, Bind.bind]

theorem runEncodeRev_eq_foldlM (ext : Ext) (stages : List CodecInst)
    (e : Envelope) :
    runEncodeRev ext stages e =
      stages.reverse.foldlM (fun d c => runEncode ext c d) e := by
  induction stages generalizing e with
  | nil => rfl
  | cons c rest ih =>
    simp only [runEncodeRev, List.reverse_cons,
      optionFoldlM_append, ← ih]
    cases runEncodeRev ext rest e with
    | none => rfl
    | some e' => simp [List.foldlM]

theorem runDecodeFwd_eq_foldlM (ext : Ext) (stages : List CodecInst)
    (e : Envelope) :
    runDecodeFwd ext stages e =
      stages.foldlM (fun d c => runDecode ext c d) e := by
  induction stages generalizing e with
  | nil => rfl
  | cons c rest ih =>
    simp only [runDecodeFwd, List.foldlM_cons]
    cases runDecode ext c e with
    | none => rfl
    | some e' => simp [ih]

/-- Claim C1: the codec resolved for tag `"bz2_json"` is the pipeline with
stages `[bz2, json]`; its `encode` equals the composition
`bz2.encode(json.encode(e))`, its `decode` equals the forward composition
`json.decode(bz2.decode(e))`; and in general a pipeline's `encode` folds
the stage list in reverse declaration order while `decode` folds it in
forward declaration order. -/
theorem pipeline_composition (ext : Ext) (e : Envelope) :
    getCodec 2 "bz2_json" initState =
      .ok (.cpipeline 2 [.cbz2 0, .cjson 1],
        { klasses := initState.klasses,
          codecs := [("bz2", .cbz2 0), ("json", .cjson 1),
                     ("bz2_json", .cpipeline 2 [.cbz2 0, .cjson 1])],
          nextId := 3 }) ∧
    runEncode ext (.cpipeline 2 [.cbz2 0, .cjson 1]) e =
      bz2Encode ext (jsonEncode e) ∧
    runDecode ext (.cpipeline 2 [.cbz2 0, .cjson 1]) e =
      (bz2Decode ext e).bind jsonDecode ∧
    (∀ (stages : List CodecInst) (i : Nat),
      runEncode ext (.cpipeline i stages) e =
        stages.reverse.foldlM (fun d c => runEncode ext c d) e) ∧
    (∀ (stages : List CodecInst) (i : Nat),
      runDecode ext (.cpipeline i stages) e =
        stages.foldlM (fun d c => runDecode ext c d) e) := by
  refine ⟨rfl, rfl, ?_, ?_, ?_⟩
  · show runDecodeFwd ext [.cbz2 0, .cjson 1] e = _
    simp only [runDecodeFwd, runDecode]
    cases bz2Decode ext e with
    | none => rfl
    | some e' =>
      simp only [Option.bind]
      cases jsonDecode e' with
      | none => rfl
      | some e'' => rfl
  · intro stages i
    exact runEncodeRev_eq_foldlM ext stages e
  · intro stages i
    exact runDecodeFwd_eq_foldlM ext stages e

/-! ## CaselessDict lemmas -/

theorem cdLookup_congr {α : Type} (m : List (String × α)) (k1 k2 : String)
    (h : lcs k1 = lcs k2) : cdLookup m k1 = cdLookup m k2 := by
  induction m with
  | nil => rfl
  | cons p rest ih => simp [cdLookup, h, ih]

theorem cdLookup_cdInsert_self {α : Type} (m : List (String × α))
    (k : String) (v : α) : cdLookup (cdInsert m k v) k = some v := by
  induction m with
  | nil => simp [cdInsert, cdLookup]
  | cons p rest ih =>
    by_cases h : lcs k = p.1
    · simp [cdInsert, cdLookup, h]
    · simp [cdInsert, cdLookup, h, ih]

theorem cdLookup_mem {α : Type} (m : List (String × α)) (k : String) (v : α)
    (h : cdLookup m k = some v) : (lcs k, v) ∈ m := by
  induction m with
  | nil => simp [cdLookup] at h
  | cons p rest ih =>
    by_cases hk : lcs k = p.1
    · simp [cdLookup, hk] at h
      subst h
      rw [hk]
      exact List.mem_cons_self _ _
    · simp [cdLookup, hk] at h
      exact List.mem_cons_of_mem _ (ih h)

theorem cdLookup_cdErase_self {α : Type} (m : List (String × α)) (k : String)
    (hnd : (m.map Prod.fst).Nodup) : cdLookup (cdErase m k) k = none := by
  induction m with
  | nil => rfl
  | cons p rest ih =>
    simp only [List.map_cons, List.nodup_cons] at hnd
    by_cases hk : lcs k = p.1
    · rw [cdErase]
      rw [if_pos hk]
      cases hv : cdLookup rest k with
      | none => rfl
      | some v =>
        exfalso
        have := cdLookup_mem rest k v hv
        exact hnd.1 (hk ▸ List.mem_map_of_mem Prod.fst this)
    · rw [cdErase]
      rw [if_neg hk]
      simp [cdLookup, hk, ih hnd.2]

theorem mem_cdInsert {α : Type} (m : List (String × α)) (k : String) (v : α)
    (p : String × α) (h : p ∈ cdInsert m k v) : p ∈ m ∨ p = (lcs k, v) := by
  induction m with
  | nil => simp [cdInsert] at h; right; simp [h]
  | cons q rest ih =>
    by_cases hk : lcs k = q.1
    · rw [cdInsert, if_pos hk] at h
      rcases List.mem_cons.mp h with h1 | h1
      · right; rw [h1, ← hk]
      · left; exact List.mem_cons_of_mem _ h1
    · rw [cdInsert, if_neg hk] at h
      rcases List.mem_cons.mp h with h1 | h1
      · left; rw [h1]; exact List.mem_cons_self _ _
      · rcases ih h1 with h2 | h2
        · left; exact List.mem_cons_of_mem _ h2
        · right; exact h2

theorem keys_cdInsert_sub {α : Type} (m : List (String × α)) (k : String)
    (v : α) (a : String) (h : a ∈ (cdInsert m k v).map Prod.fst) :
    a ∈ m.map Prod.fst ∨ a = lcs k := by
  rcases List.mem_map.mp h with ⟨p, hp, hpa⟩
  rcases mem_cdInsert m k v p hp with h1 | h1
  · left; exact hpa ▸ List.mem_map_of_mem Prod.fst h1
  · right; rw [← hpa, h1]

theorem nodup_cdInsert {α : Type} (m : List (String × α)) (k : String) (v : α)
    (hnd : (m.map Prod.fst).Nodup) : ((cdInsert m k v).map Prod.fst).Nodup := by
  induction m with
  | nil => simp [cdInsert]
  | cons q rest ih =>
    simp only [List.map_cons, List.nodup_cons] at hnd
    by_cases hk : lcs k = q.1
    · rw [cdInsert, if_pos hk]
      simpa using hnd
    · rw [cdInsert, if_neg hk]
      simp only [List.map_cons, List.nodup_cons]
      refine ⟨fun hmem => ?_, ih hnd.2⟩
      rcases keys_cdInsert_sub rest k v q.1 hmem with h1 | h1
      · exact hnd.1 h1
      · exact hk h1.symm

theorem mem_cdErase {α : Type} (m : List (String × α)) (k : String)
    (p : String × α) (h : p ∈ cdErase m k) : p ∈ m := by
  induction m with
  | nil => simp [cdErase] at h
  | cons q rest ih =>
    by_cases hk : lcs k = q.1
    · rw [cdErase, if_pos hk] at h
      exact List.mem_cons_of_mem _ h
    · rw [cdErase, if_neg hk] at h
      rcases List.mem_cons.mp h with h1 | h1
      · rw [h1]; exact List.mem_cons_self _ _
      · exact List.mem_cons_of_mem _ (ih h1)

theorem nodup_cdErase {α : Type} (m : List (String × α)) (k : String)
    (hnd : (m.map Prod.fst).Nodup) : ((cdErase m k).map Prod.fst).Nodup := by
  induction m with
  | nil => exact List.nodup_nil
  | cons q rest ih =>
    simp only [List.map_cons, List.nodup_cons] at hnd
    by_cases hk : lcs k = q.1
    · rw [cdErase, if_pos hk]
      exact hnd.2
    · rw [cdErase, if_neg hk]
      simp only [List.map_cons, List.nodup_cons]
      refine ⟨fun hmem => ?_, ih hnd.2⟩
      rcases List.mem_map.mp hmem with ⟨p, hp, hpa⟩
      exact hnd.1 (hpa ▸ List.mem_map_of_mem Prod.fst (mem_cdErase rest k p hp))

/-! ## Tag-splitting lemmas -/

theorem splitUcs_ne_nil (cs : List Char) : splitUcs cs ≠ [] := by
  cases cs with
  | nil => simp [splitUcs]
  | cons c rest =>
    rw [splitUcs]
    by_cases h : c = '_'
    · simp [h]
    · simp only [if_neg h]
      rcases hr : splitUcs rest with _ | ⟨g, gs⟩
      · simp
      · simp

theorem mem_splitUcs_no_underscore (cs : List Char) (g : List Char)
    (h : g ∈ splitUcs cs) : '_' ∉ g := by
  induction cs generalizing g with
  | nil =>
    simp [splitUcs] at h
    simp [h]
  | cons c rest ih =>
    rw [splitUcs] at h
    by_cases hc : c = '_'
    · rw [if_pos hc] at h
      rcases List.mem_cons.mp h with h1 | h1
      · simp [h1]
      · exact ih g h1
    · rw [if_neg hc] at h
      rcases hr : splitUcs rest with _ | ⟨g0, gs⟩
      · exact absurd hr (splitUcs_ne_nil rest)
      · rw [hr] at h
        simp only at h
        rcases List.mem_cons.mp h with h1 | h1
        · rw [h1]
          intro hmem
          rcases List.mem_cons.mp hmem with h2 | h2
          · exact hc h2.symm
          · exact ih g0 (hr ▸ List.mem_cons_self g0 gs) h2
        · exact ih g (hr ▸ List.mem_cons_of_mem g0 h1)

theorem splitUcs_no_underscore (cs : List Char) (h : '_' ∉ cs) :
    splitUcs cs = [cs] := by
  induction cs with
  | nil => rfl
  | cons c rest ih =>
    simp only [List.mem_cons, not_or] at h
    rw [splitUcs, if_neg (Ne.symm h.1), ih h.2]

theorem goodTag_of_mem_split (t seg : String) (h : goodTag t)
    (hmem : seg ∈ splitU t) : goodTag seg := by
  refine ⟨h.2 seg hmem, fun s2 hs2 => ?_⟩
  rcases List.mem_map.mp hmem with ⟨g, hg, hgseg⟩
  have hnu : '_' ∉ g := mem_splitUcs_no_underscore t.data g hg
  have hdata : seg.data = g := by rw [← hgseg]
  have hsplit : splitU seg = [seg] := by
    unfold splitU
    rw [hdata, splitUcs_no_underscore g hnu]
    simp [hgseg]
  rw [hsplit] at hs2
  have hseg : s2 = seg := List.mem_singleton.mp hs2
  rw [hseg]
  exact h.2 seg hmem

/-! ## Identity-codec lemmas -/

theorem isIdentity_cnull (i : Nat) : IsIdentity (.cnull i) :=
  fun _ _ => ⟨rfl, rfl⟩

theorem runList_identity (ext : Ext) (stages : List CodecInst)
    (h : ∀ c ∈ stages, IsIdentity c) (e : Envelope) :
    runEncodeRev ext stages e = some e ∧ runDecodeFwd ext stages e = some e := by
  induction stages generalizing e with
  | nil => exact ⟨rfl, rfl⟩
  | cons c rest ih =>
    have hc : IsIdentity c := h c (List.mem_cons_self _ _)
    have hrest : ∀ c' ∈ rest, IsIdentity c' :=
      fun c' hc' => h c' (List.mem_cons_of_mem _ hc')
    constructor
    · rw [runEncodeRev, (ih hrest e).1]
      exact (hc ext e).1
    · rw [runDecodeFwd, (hc ext e).2]
      exact (ih hrest e).2

theorem isIdentity_cpipeline (i : Nat) (stages : List CodecInst)
    (h : ∀ c ∈ stages, IsIdentity c) : IsIdentity (.cpipeline i stages) :=
  fun ext e => runList_identity ext stages h e

/-! ## Factory state lemmas -/

theorem resState_ok {α : Type} (a : α) (s : FState) :
    resState (.ok (a, s)) = s := rfl

theorem resState_error {α : Type} (s : FState) :
    resState (α := α) (.error s) = s := rfl

theorem buildStages_klasses (rec : FResolve)
    (hrec : ∀ fm st, (resState (rec fm st)).klasses = st.klasses) :
    ∀ (segs : List String) (s : FState),
      (resState (buildStages rec segs s)).klasses = s.klasses := by
  intro segs
  induction segs with
  | nil => intro s; rfl
  | cons seg rest ih =>
    intro s
    have h1 := hrec seg s
    cases hg : rec seg s with
    | error s' =>
      rw [hg, resState_error] at h1
      simp only [buildStages, hg, resState_error]
      exact h1
    | ok p =>
      obtain ⟨c, s'⟩ := p
      rw [hg, resState_ok] at h1
      have h2 := ih s'
      cases hb : buildStages rec rest s' with
      | error s'' =>
        rw [hb, resState_error] at h2
        simp only [buildStages, hg, hb, resState_error]
        exact h2.trans h1
      | ok q =>
        obtain ⟨cs, s''⟩ := q
        rw [hb, resState_ok] at h2
        simp only [buildStages, hg, hb, resState_ok]
        exact h2.trans h1

theorem getCodec_klasses : ∀ (fuel : Nat) (fmt : String) (s : FState),
    (resState (getCodec fuel fmt s)).klasses = s.klasses := by
  intro fuel
  induction fuel with
  | zero => intro fmt s; rfl
  | succ fuel ih =>
    intro fmt s
    rw [getCodec]
    cases hc : cdLookup s.codecs fmt with
    | some c => rfl
    | none =>
      simp only [hc]
      have hbs := buildStages_klasses (fun fm st => getCodec fuel fm st)
        (fun fm st => ih fm st) (splitU fmt) s
      simp only [getNewCodec, buildPipeline]
      cases hk : cdLookup s.klasses fmt with
      | some k => rfl
      | none =>
        simp only [hk]
        cases hb : buildStages (fun fm st => getCodec fuel fm st) (splitU fmt) s with
        | ok q =>
          obtain ⟨cs, s'⟩ := q
          rw [hb, resState_ok] at hbs
          simp only [hb, resState_ok]
          exact hbs
        | error s' =>
          rw [hb, resState_error] at hbs
          simp only [hb]
          cases hf : cdLookup s'.klasses "" with
          | some k => simp only [hf, resState_ok]; exact hbs
          | none => simp only [hf, resState_error]; exact hbs

theorem getCodec_isOk (fuel : Nat) (fmt : String) (s : FState)
    (hfuel : 1 ≤ fuel) (h0 : cdLookup s.klasses "" = some .knull) :
    ∃ c s', getCodec fuel fmt s = .ok (c, s') := by
  obtain ⟨f, rfl⟩ : ∃ f, fuel = f + 1 := ⟨fuel - 1, by omega⟩
  rw [getCodec]
  cases hc : cdLookup s.codecs fmt with
  | some c => exact ⟨c, s, rfl⟩
  | none =>
    simp only [getNewCodec, buildPipeline]
    cases hk : cdLookup s.klasses fmt with
    | some k => exact ⟨_, _, rfl⟩
    | none =>
      cases hb : buildStages (fun fm st => getCodec f fm st) (splitU fmt) s with
      | ok q =>
        obtain ⟨cs, s'⟩ := q
        exact ⟨_, _, rfl⟩
      | error s' =>
        have hkl : s'.klasses = s.klasses := by
          have hbs := buildStages_klasses (fun fm st => getCodec f fm st)
            (fun fm st => getCodec_klasses f fm st) (splitU fmt) s
          rw [hb, resState_error] at hbs
          exact hbs
        simp only [hkl, h0]
        exact ⟨_, _, rfl⟩

theorem cacheAllIdentity_insert (s : FState) (fmt : String) (c : CodecInst)
    (hid : cacheAllIdentity s) (hc : IsIdentity c) :
    cacheAllIdentity { s with codecs := cdInsert s.codecs fmt c } := by
  intro p hp
  rcases mem_cdInsert s.codecs fmt c p hp with h | h
  · exact hid p h
  · rw [h]; exact hc

theorem buildStages_good (rec : FResolve)
    (hrec : ∀ fm st, st.klasses = initState.klasses → cacheAllIdentity st →
      goodTag fm →
      match rec fm st with
      | .ok (c, s') => IsIdentity c ∧ s'.klasses = initState.klasses ∧ cacheAllIdentity s'
      | .error s' => s'.klasses = initState.klasses ∧ cacheAllIdentity s') :
    ∀ (segs : List String) (s : FState),
      s.klasses = initState.klasses → cacheAllIdentity s →
      (∀ seg ∈ segs, goodTag seg) →
      match buildStages rec segs s with
      | .ok (cs, s') => (∀ c ∈ cs, IsIdentity c) ∧
          s'.klasses = initState.klasses ∧ cacheAllIdentity s'
      | .error s' => s'.klasses = initState.klasses ∧ cacheAllIdentity s' := by
  intro segs
  induction segs with
  | nil =>
    intro s hkl hid _
    exact ⟨by simp, hkl, hid⟩
  | cons seg rest ih =>
    intro s hkl hid hgood
    have h1 := hrec seg s hkl hid (hgood seg (List.mem_cons_self _ _))
    cases hg : rec seg s with
    | error s' =>
      rw [hg] at h1
      simp only [buildStages, hg]
      exact h1
    | ok p =>
      obtain ⟨c, s'⟩ := p
      rw [hg] at h1
      obtain ⟨hcId, hkl', hid'⟩ := h1
      have h2 := ih s' hkl' hid'
        (fun sg hsg => hgood sg (List.mem_cons_of_mem _ hsg))
      cases hb : buildStages rec rest s' with
      | error s'' =>
        rw [hb] at h2
        simp only [buildStages, hg, hb]
        exact h2
      | ok q =>
        obtain ⟨cs, s''⟩ := q
        rw [hb] at h2
        simp only [buildStages, hg, hb]
        refine ⟨fun c' hc' => ?_, h2.2.1, h2.2.2⟩
        rcases List.mem_cons.mp hc' with h3 | h3
        · rw [h3]; exact hcId
        · exact h2.1 c' h3

theorem getCodec_good : ∀ (fuel : Nat) (fmt : String) (s : FState),
    s.klasses = initState.klasses → cacheAllIdentity s → goodTag fmt →
    match getCodec fuel fmt s with
    | .ok (c, s') => IsIdentity c ∧ s'.klasses = initState.klasses ∧ cacheAllIdentity s'
    | .error s' => s'.klasses = initState.klasses ∧ cacheAllIdentity s' := by
  intro fuel
  induction fuel with
  | zero => intro fmt s hkl hid _; exact ⟨hkl, hid⟩
  | succ fuel ih =>
    intro fmt s hkl hid hgood
    rw [getCodec]
    cases hc : cdLookup s.codecs fmt with
    | some c =>
      refine ⟨?_, hkl, hid⟩
      exact hid _ (cdLookup_mem s.codecs fmt c hc)
    | none =>
      simp only [getNewCodec, buildPipeline]
      cases hk : cdLookup s.klasses fmt with
      | some k =>
        rw [hkl] at hk
        have hknull : k = CodecKlass.knull := by
          rcases hgood.1 with hfo | hfo
          · rw [hfo] at hk; cases hk
          · rw [hfo] at hk; exact (Option.some_inj.mp hk).symm
        subst hknull
        exact ⟨isIdentity_cnull _, hkl,
          cacheAllIdentity_insert _ fmt _ hid (isIdentity_cnull _)⟩
      | none =>
        have hsegs : ∀ seg ∈ splitU fmt, goodTag seg :=
          fun seg hseg => goodTag_of_mem_split fmt seg hgood hseg
        have hbg := buildStages_good (fun fm st => getCodec fuel fm st)
          (fun fm st hk1 hi1 hg1 => ih fm st hk1 hi1 hg1)
          (splitU fmt) s hkl hid hsegs
        cases hb : buildStages (fun fm st => getCodec fuel fm st) (splitU fmt) s with
        | ok q =>
          obtain ⟨cs, s'⟩ := q
          rw [hb] at hbg
          obtain ⟨hcs, hkl', hid'⟩ := hbg
          exact ⟨isIdentity_cpipeline _ cs hcs, hkl',
            cacheAllIdentity_insert _ fmt _ hid' (isIdentity_cpipeline _ cs hcs)⟩
        | error s' =>
          rw [hb] at hbg
          obtain ⟨hkl', hid'⟩ := hbg
          have hf : cdLookup s'.klasses "" = some CodecKlass.knull := by
            rw [hkl']; rfl
          simp only [hf]
          exact ⟨isIdentity_cnull _, hkl',
            cacheAllIdentity_insert _ fmt _ hid' (isIdentity_cnull _)⟩

/-! ## Claim C4 -/

/-- Claim C4: for every format tag — including malformed and unregistered
ones such as `"totally_unknown_xyz"` — `getCodec` never raises out to the
caller (whenever the class registry still maps `''` to `NullCodec`, as in
the default registry, and at least one stack frame of fuel is available);
and the codec it resolves for `"totally_unknown_xyz"` from a fresh factory
behaves as the identity on both `encode` and `decode` (the Null
fallback). -/
theorem getCodec_never_raises_null_fallback :
    (∀ (fmt : String) (fuel : Nat) (s : FState), 1 ≤ fuel →
      cdLookup s.klasses "" = some CodecKlass.knull →
      ∃ c s', getCodec fuel fmt s = .ok (c, s')) ∧
    (∀ (fuel : Nat) (c : CodecInst) (s' : FState),
      getCodec fuel "totally_unknown_xyz" initState = .ok (c, s') →
      IsIdentity c) := by
  constructor
  · exact fun fmt fuel s h1 h0 => getCodec_isOk fuel fmt s h1 h0
  · intro fuel c s' h
    have hg := getCodec_good fuel "totally_unknown_xyz" initState rfl
      (fun p hp => absurd hp (List.not_mem_nil p))
      (by unfold goodTag fmtOK; decide)
    rw [h] at hg
    exact hg.1

/-- Witness for C4: from a fresh factory with one frame of fuel,
`getCodec "totally_unknown_xyz"` returns normally, and the codec it
returns encodes the sample envelope `("fmt", 7)` to itself. -/
theorem getCodec_never_raises_null_fallback_witness :
    (∃ c s', getCodec 1 "totally_unknown_xyz" initState = .ok (c, s')) ∧
    runEncode idExt (.cnull 0) ("fmt", .vint 7) = some ("fmt", .vint 7) := by
  refine ⟨getCodec_never_raises_null_fallback.1 "totally_unknown_xyz" 1 initState
    (by decide) (by decide), ?_⟩
  exact (getCodec_never_raises_null_fallback.2 1 (.cnull 0)
    { klasses := initState.klasses,
      codecs := [("totally_unknown_xyz", .cnull 0)], nextId := 1 }
    rfl idExt ("fmt", .vint 7)).1

/-! ## Claim C7 -/

theorem instId_instantiateK (k : CodecKlass) (i : Nat) :
    instId (instantiateK k i) = i := by
  cases k <;> rfl

theorem inv_insert (s1 : FState) (fmt : String) (c : CodecInst)
    (hInv : Inv s1) (hc : instId c < s1.nextId) :
    Inv { s1 with codecs := cdInsert s1.codecs fmt c } := by
  constructor
  · exact nodup_cdInsert _ _ _ hInv.1
  · intro p hp
    rcases mem_cdInsert s1.codecs fmt c p hp with h | h
    · exact hInv.2 p h
    · rw [h]; exact hc

theorem buildStages_inv (rec : FResolve)
    (hrec : ∀ fm st, Inv st →
      match rec fm st with
      | .ok (c, s') => Inv s' ∧ st.nextId ≤ s'.nextId ∧ instId c < s'.nextId
      | .error s' => Inv s' ∧ st.nextId ≤ s'.nextId) :
    ∀ (segs : List String) (s : FState), Inv s →
      match buildStages rec segs s with
      | .ok (cs, s') => Inv s' ∧ s.nextId ≤ s'.nextId ∧
          ∀ c ∈ cs, instId c < s'.nextId
      | .error s' => Inv s' ∧ s.nextId ≤ s'.nextId := by
  intro segs
  induction segs with
  | nil =>
    intro s hInv
    exact ⟨hInv, Nat.le_refl _, by simp⟩
  | cons seg rest ih =>
    intro s hInv
    have h1 := hrec seg s hInv
    cases hg : rec seg s with
    | error s' =>
      rw [hg] at h1
      simp only [buildStages, hg]
      exact h1
    | ok p =>
      obtain ⟨c, s'⟩ := p
      rw [hg] at h1
      obtain ⟨hInv', hle', hc'⟩ := h1
      have h2 := ih s' hInv'
      cases hb : buildStages rec rest s' with
      | error s'' =>
        rw [hb] at h2
        simp only [buildStages, hg, hb]
        exact ⟨h2.1, Nat.le_trans hle' h2.2⟩
      | ok q =>
        obtain ⟨cs, s''⟩ := q
        rw [hb] at h2
        obtain ⟨hInv'', hle'', hcs''⟩ := h2
        simp only [buildStages, hg, hb]
        refine ⟨hInv'', Nat.le_trans hle' hle'', fun c' hcm => ?_⟩
        rcases List.mem_cons.mp hcm with h3 | h3
        · rw [h3]; exact Nat.lt_of_lt_of_le hc' hle''
        · exact hcs'' c' h3

theorem getCodec_inv : ∀ (fuel : Nat) (fmt : String) (s : FState), Inv s →
    match getCodec fuel fmt s with
    | .ok (c, s') => Inv s' ∧ s.nextId ≤ s'.nextId ∧ instId c < s'.nextId ∧
        cdLookup s'.codecs fmt = some c
    | .error s' => Inv s' ∧ s.nextId ≤ s'.nextId := by
  intro fuel
  induction fuel with
  | zero => intro fmt s hInv; exact ⟨hInv, Nat.le_refl _⟩
  | succ fuel ih =>
    intro fmt s hInv
    rw [getCodec]
    cases hc : cdLookup s.codecs fmt with
    | some c =>
      exact ⟨hInv, Nat.le_refl _,
        hInv.2 _ (cdLookup_mem s.codecs fmt c hc), hc⟩
    | none =>
      simp only [getNewCodec, buildPipeline]
      cases hk : cdLookup s.klasses fmt with
      | some k =>
        simp only [hk]
        refine ⟨?_, Nat.le_succ _, ?_, ?_⟩
        · exact inv_insert { s with nextId := s.nextId + 1 } fmt
            (instantiateK k s.nextId)
            ⟨hInv.1, fun p hp => Nat.lt_succ_of_lt (hInv.2 p hp)⟩
            (by rw [instId_instantiateK]; exact Nat.lt_succ_self _)
        · rw [instId_instantiateK]; exact Nat.lt_succ_self _
        · exact cdLookup_cdInsert_self _ _ _
      | none =>
        have hbs := buildStages_inv (fun fm st => getCodec fuel fm st)
          (fun fm st hi => by
            show match getCodec fuel fm st with
              | .ok (c, s') => Inv s' ∧ st.nextId ≤ s'.nextId ∧ instId c < s'.nextId
              | .error s' => Inv s' ∧ st.nextId ≤ s'.nextId
            have hthis := ih fm st hi
            cases hx : getCodec fuel fm st with
            | ok p =>
              obtain ⟨c0, s0⟩ := p
              rw [hx] at hthis
              exact ⟨hthis.1, hthis.2.1, hthis.2.2.1⟩
            | error s0 =>
              rw [hx] at hthis
              exact hthis)
          (splitU fmt) s hInv
        cases hb : buildStages (fun fm st => getCodec fuel fm st) (splitU fmt) s with
        | ok q =>
          obtain ⟨cs, s'⟩ := q
          rw [hb] at hbs
          obtain ⟨hInv', hle', hcs'⟩ := hbs
          simp only [hk, hb]
          refine ⟨?_, ?_, ?_, ?_⟩
          · exact inv_insert { s' with nextId := s'.nextId + 1 } fmt
              (.cpipeline s'.nextId cs)
              ⟨hInv'.1, fun p hp => Nat.lt_succ_of_lt (hInv'.2 p hp)⟩
              (Nat.lt_succ_self _)
          · exact Nat.le_trans hle' (Nat.le_succ _)
          · exact Nat.lt_succ_self _
          · exact cdLookup_cdInsert_self _ _ _
        | error s' =>
          rw [hb] at hbs
          obtain ⟨hInv', hle'⟩ := hbs
          cases hf : cdLookup s'.klasses "" with
          | some k =>
            simp only [hk, hb, hf]
            refine ⟨?_, ?_, ?_, ?_⟩
            · exact inv_insert { s' with nextId := s'.nextId + 1 } fmt
                (instantiateK k s'.nextId)
                ⟨hInv'.1, fun p hp => Nat.lt_succ_of_lt (hInv'.2 p hp)⟩
                (by rw [instId_instantiateK]; exact Nat.lt_succ_self _)
            · exact Nat.le_trans hle' (Nat.le_succ _)
            · rw [instId_instantiateK]; exact Nat.lt_succ_self _
            · exact cdLookup_cdInsert_self _ _ _
          | none =>
            simp only [hk, hb, hf]
            exact ⟨hInv', hle'⟩

/-- Claim C7: once `getCodec` succeeds for a tag, a second call with the
same tag (up to case) and no intervening registry mutation returns the
identical cached instance and leaves the state untouched; after
`registerCodec` overwrites that exact tag, the next successful `getCodec`
returns a different, newly constructed instance of the registered class;
and the resulting cache satisfies the at-most-one-instance-per-tag
invariant (`Inv` contains the distinctness of the cache keys). -/
theorem factory_cache_and_registration (t : String) (k : CodecKlass)
    (s : FState) (fuel : Nat) (c : CodecInst) (s' : FState)
    (hInv : Inv s) (h : getCodec fuel t s = .ok (c, s')) :
    (∀ (f₂ : Nat) (t₂ : String), lcs t₂ = lcs t →
      getCodec (f₂ + 1) t₂ s' = .ok (c, s')) ∧
    (∀ (f₃ : Nat) (c₂ : CodecInst) (s₃ : FState),
      getCodec f₃ t (registerCodec t k s') = .ok (c₂, s₃) →
      instId c₂ ≠ instId c ∧ c₂ = instantiateK k s'.nextId) ∧
    Inv s' := by
  have hi := getCodec_inv fuel t s hInv
  rw [h] at hi
  obtain ⟨hInv', hle, hcid, hlook⟩ := hi
  refine ⟨?_, ?_, hInv'⟩
  · intro f₂ t₂ ht₂
    rw [getCodec, cdLookup_congr s'.codecs t₂ t ht₂, hlook]
  · intro f₃ c₂ s₃ h₃
    cases f₃ with
    | zero => simp [getCodec] at h₃
    | succ f =>
      rw [getCodec] at h₃
      have hcache : cdLookup (registerCodec t k s').codecs t = none := by
        show cdLookup (cdErase s'.codecs t) t = none
        exact cdLookup_cdErase_self _ _ hInv'.1
      have hklass : cdLookup (registerCodec t k s').klasses t = some k := by
        show cdLookup (cdInsert s'.klasses t k) t = some k
        exact cdLookup_cdInsert_self _ _ _
      rw [hcache] at h₃
      simp only [getNewCodec, hklass] at h₃
      simp only [Except.ok.injEq, Prod.mk.injEq] at h₃
      obtain ⟨hc₂, _⟩ := h₃
      have hnid : (registerCodec t k s').nextId = s'.nextId := rfl
      constructor
      · rw [← hc₂, instId_instantiateK, hnid]
        exact fun he => absurd hcid (by rw [he]; exact Nat.lt_irrefl _)
      · rw [← hc₂, hnid]

/-- Witness for C7: with `"json"` cached as instance `cjson 0`, a repeated
lookup under the different spelling `"JSON"` hits the cache and returns the
same instance unchanged, and the instance constructed after re-registering
`"json"` carries a different identity. -/
theorem factory_cache_and_registration_witness :
    getCodec 1 "JSON"
        { klasses := initState.klasses,
          codecs := [("json", CodecInst.cjson 0)], nextId := 1 } =
      .ok (.cjson 0,
        { klasses := initState.klasses,
          codecs := [("json", CodecInst.cjson 0)], nextId := 1 }) ∧
    instId (instantiateK .kplot 1) ≠ instId (CodecInst.cjson 0) := by
  have h := factory_cache_and_registration "json" .kplot initState 1 (.cjson 0)
    { klasses := initState.klasses, codecs := [("json", CodecInst.cjson 0)],
      nextId := 1 }
    ⟨List.nodup_nil, fun p hp => absurd hp (List.not_mem_nil p)⟩ rfl
  exact ⟨h.1 0 "JSON" rfl, (h.2.1 1 _ _ rfl).1⟩

/-! ## Serialization round trip: digits -/

theorem digitChar_facts (n : Nat) (h : n < 10) :
    isDigitC (digitChar n) = true ∧ digitVal (digitChar n) = n := by
  interval_cases n <;> exact ⟨rfl, rfl⟩

theorem isDigitC_toNat (c : Char) (h : isDigitC c = true) :
    48 ≤ c.toNat ∧ c.toNat ≤ 57 := by
  simp only [isDigitC, Bool.and_eq_true, decide_eq_true_eq] at h
  exact h

theorem digit_ne (c : Char) (h : isDigitC c = true) :
    c ≠ 'n' ∧ c ≠ 't' ∧ c ≠ 'f' ∧ c ≠ '"' ∧ c ≠ '[' ∧ c ≠ '{' ∧
    c ≠ '-' ∧ c ≠ ']' ∧ c ≠ '}' := by
  refine ⟨?_, ?_, ?_, ?_, ?_, ?_, ?_, ?_, ?_⟩ <;>
    (intro he; rw [he] at h; exact absurd h (by decide))

theorem natToCharsAux_digits : ∀ (fuel n : Nat), n < fuel →
    ∀ c ∈ natToCharsAux fuel n, isDigitC c = true := by
  intro fuel
  induction fuel with
  | zero => intro n h; omega
  | succ fuel ih =>
    intro n h c hc
    rw [natToCharsAux] at hc
    by_cases h10 : n < 10
    · rw [if_pos h10] at hc
      rcases List.mem_singleton.mp hc with rfl
      exact (digitChar_facts n h10).1
    · rw [if_neg h10] at hc
      rcases List.mem_append.mp hc with h1 | h1
      · exact ih (n / 10) (by omega) c h1
      · rcases List.mem_singleton.mp h1 with rfl
        exact (digitChar_facts _ (Nat.mod_lt n (by omega))).1

theorem natToCharsAux_ne_nil : ∀ (fuel n : Nat), n < fuel →
    natToCharsAux fuel n ≠ [] := by
  intro fuel
  induction fuel with
  | zero => intro n h; omega
  | succ fuel _ =>
    intro n h
    rw [natToCharsAux]
    by_cases h10 : n < 10
    · simp [h10]
    · simp [h10]

theorem natToCharsAux_fold : ∀ (fuel n acc : Nat), n < fuel →
    List.foldl (fun a c => a * 10 + digitVal c) acc (natToCharsAux fuel n) =
      acc * 10 ^ (natToCharsAux fuel n).length + n := by
  intro fuel
  induction fuel with
  | zero => intro n acc h; omega
  | succ fuel ih =>
    intro n acc h
    rw [natToCharsAux]
    by_cases h10 : n < 10
    · rw [if_pos h10]
      simp [List.foldl, (digitChar_facts n h10).2]
    · rw [if_neg h10]
      rw [List.foldl_append]
      have hdiv : n / 10 < fuel := by
        have := Nat.div_lt_self (by omega : 0 < n) (by omega : 1 < 10)
        omega
      rw [ih (n / 10) acc hdiv]
      simp only [List.foldl, List.length_append, List.length_singleton]
      rw [(digitChar_facts _ (Nat.mod_lt n (by omega))).2]
      have hmod := Nat.div_add_mod n 10
      rw [Nat.pow_succ]
      ring_nf
      omega

theorem parseDigits_spec : ∀ (ds rest : List Char) (acc : Nat),
    (∀ c ∈ ds, isDigitC c = true) → delimOk rest = true →
    parseDigits (ds ++ rest) acc =
      (List.foldl (fun a c => a * 10 + digitVal c) acc ds, rest) := by
  intro ds
  induction ds with
  | nil =>
    intro rest acc _ hrest
    cases rest with
    | nil => rfl
    | cons c rest' =>
      unfold delimOk at hrest
      rw [List.nil_append, parseDigits, if_neg (by simp_all)]
      rfl
  | cons d ds ih =>
    intro rest acc hds hrest
    rw [List.cons_append, parseDigits,
      if_pos (hds d (List.mem_cons_self _ _)), List.foldl]
    exact ih rest _ (fun c hc => hds c (List.mem_cons_of_mem _ hc)) hrest

theorem natToChars_parse (n : Nat) (rest : List Char)
    (hrest : delimOk rest = true) :
    ∃ d ds, natToChars n = d :: ds ∧ isDigitC d = true ∧
      parseDigits (ds ++ rest) (digitVal d) = (n, rest) := by
  have hlt : n < n + 1 := Nat.lt_succ_self n
  rcases hx : natToCharsAux (n + 1) n with _ | ⟨d, ds⟩
  · exact absurd hx (natToCharsAux_ne_nil (n + 1) n hlt)
  · refine ⟨d, ds, hx, ?_, ?_⟩
    · exact natToCharsAux_digits (n + 1) n hlt d (hx ▸ List.mem_cons_self d ds)
    · have hds : ∀ c ∈ ds, isDigitC c = true :=
        fun c hc => natToCharsAux_digits (n + 1) n hlt c
          (hx ▸ List.mem_cons_of_mem d hc)
      rw [parseDigits_spec ds rest (digitVal d) hds hrest]
      have hfold := natToCharsAux_fold (n + 1) n 0 hlt
      rw [hx] at hfold
      simp only [List.foldl] at hfold
      simp at hfold
      rw [hfold]

/-! ## Serialization round trip: strings -/

theorem parseStr_escape : ∀ (cs rest : List Char),
    parseStr (escStr cs ++ '"' :: rest) = some (cs, rest) := by
  intro cs
  induction cs with
  | nil =>
    intro rest
    rw [escStr, List.nil_append, parseStr.eq_def]
    simp
  | cons c cs ih =>
    intro rest
    rw [escStr, List.append_assoc]
    unfold escChar
    by_cases hc : c = '"' ∨ c = '\\'
    · rw [if_pos hc]
      rw [List.cons_append, List.cons_append, List.nil_append]
      rw [parseStr.eq_def]
      simp [ih rest]
    · rw [if_neg hc]
      push_neg at hc
      rw [List.cons_append, List.nil_append]
      rw [parseStr.eq_def]
      simp [hc.1, hc.2, ih rest]

/-! ## Serialization round trip: leading characters and fuel bounds -/

theorem dumpsCs_head (v : PyVal) :
    ∃ c cs, dumpsCs v = c :: cs ∧ c ≠ ']' := by
  cases v with
  | vnone => exact ⟨'n', _, rfl, by decide⟩
  | vbool b =>
    cases b with
    | false => exact ⟨'f', _, rfl, by decide⟩
    | true => exact ⟨'t', _, rfl, by decide⟩
  | vint n =>
    cases n with
    | ofNat m =>
      rcases hx : natToCharsAux (m + 1) m with _ | ⟨d, ds⟩
      · exact absurd hx (natToCharsAux_ne_nil _ _ (Nat.lt_succ_self m))
      · have hd := natToCharsAux_digits (m + 1) m (Nat.lt_succ_self m) d
          (hx ▸ List.mem_cons_self d ds)
        exact ⟨d, ds, hx, (digit_ne d hd).2.2.2.2.2.2.2.1⟩
    | negSucc m => exact ⟨'-', _, rfl, by decide⟩
  | vstr s => exact ⟨'"', _, rfl, by decide⟩
  | vlist xs => exact ⟨'[', _, rfl, by decide⟩
  | vtuple xs => exact ⟨'[', _, rfl, by decide⟩
  | vdict kvs => exact ⟨'{', _, rfl, by decide⟩

theorem dumpsElems_head (x : PyVal) (xs : List PyVal) :
    ∃ c cs, dumpsElems (x :: xs) = c :: cs ∧ c ≠ ']' := by
  obtain ⟨c, cs, hc, hne⟩ := dumpsCs_head x
  cases xs with
  | nil => exact ⟨c, cs, hc, hne⟩
  | cons y r =>
    refine ⟨c, cs ++ ',' :: dumpsElems (y :: r), ?_, hne⟩
    rw [dumpsElems, hc, List.cons_append]

theorem dumpsFields_head (f : String × PyVal) (fs : List (String × PyVal)) :
    ∃ cs, dumpsFields (f :: fs) = '"' :: cs := by
  obtain ⟨k, v⟩ := f
  cases fs with
  | nil => exact ⟨_, rfl⟩
  | cons f2 r => exact ⟨_, rfl⟩

theorem pfuel_pos (v : PyVal) : 1 ≤ pfuel v := by
  cases v with
  | vnone => exact Nat.le_refl 1
  | vbool b => exact Nat.le_refl 1
  | vint n => exact Nat.le_refl 1
  | vstr s => exact Nat.le_refl 1
  | vtuple xs => exact Nat.le_refl 1
  | vlist xs => cases xs <;> simp [pfuel]
  | vdict kvs => cases kvs <;> simp [pfuel]

theorem efuel_pos (xs : List PyVal) : 1 ≤ efuel xs := by
  cases xs <;> simp [efuel]

theorem ffuel_pos (kvs : List (String × PyVal)) : 1 ≤ ffuel kvs := by
  cases kvs with
  | nil => exact Nat.le_refl 1
  | cons f fs => obtain ⟨k, v⟩ := f; simp [ffuel]

/-! ## Serialization round trip: the main induction -/

theorem parse_dumps_all : ∀ fuel : Nat,
    (∀ (v : PyVal) (rest : List Char), jsonable v = true → pfuel v ≤ fuel →
      delimOk rest = true →
      parseVal fuel (dumpsCs v ++ rest) = some (v, rest)) ∧
    (∀ (xs : List PyVal) (rest : List Char), xs ≠ [] →
      jsonableList xs = true → efuel xs ≤ fuel →
      parseElems fuel (dumpsElems xs ++ ']' :: rest) = some (xs, rest)) ∧
    (∀ (kvs : List (String × PyVal)) (rest : List Char), kvs ≠ [] →
      jsonableKVs kvs = true → ffuel kvs ≤ fuel →
      parseFields fuel (dumpsFields kvs ++ '}' :: rest) = some (kvs, rest)) := by
  intro fuel
  induction fuel with
  | zero =>
    refine ⟨fun v _ _ hf _ => ?_, fun xs _ _ _ hf => ?_, fun kvs _ _ _ hf => ?_⟩
    · exact absurd hf (by have := pfuel_pos v; omega)
    · exact absurd hf (by have := efuel_pos xs; omega)
    · exact absurd hf (by have := ffuel_pos kvs; omega)
  | succ fuel ih =>
    obtain ⟨IHv, IHe, IHf⟩ := ih
    refine ⟨?_, ?_, ?_⟩
    · -- values
      intro v rest hj hf hrest
      cases v with
      | vnone => simp [dumpsCs, parseVal]
      | vbool b => cases b <;> simp [dumpsCs, parseVal]
      | vint n =>
        cases n with
        | ofNat m =>
          obtain ⟨d, ds, hdds, hdig, hparse⟩ := natToChars_parse m rest hrest
          obtain ⟨h1, h2, h3, h4, h5, h6, h7, _, _⟩ := digit_ne d hdig
          have hcons : dumpsCs (.vint (.ofNat m)) ++ rest = d :: (ds ++ rest) := by
            show natToChars m ++ rest = _
            rw [hdds, List.cons_append]
          rw [hcons]
          simp only [parseVal]
          simp [h1, h2, h3, h4, h5, h6, h7, hdig, hparse]
        | negSucc m =>
          obtain ⟨d, ds, hdds, hdig, hparse⟩ := natToChars_parse (m + 1) rest hrest
          have hcons : dumpsCs (.vint (.negSucc m)) ++ rest =
              '-' :: (d :: (ds ++ rest)) := by
            show ('-' :: natToChars (m + 1)) ++ rest = _
            rw [List.cons_append, hdds, List.cons_append]
          rw [hcons]
          simp only [parseVal]
          simp [hdig, hparse, Int.negSucc_eq]
      | vstr s =>
        have hcons : dumpsCs (.vstr s) ++ rest =
            '"' :: (escStr s.data ++ '"' :: rest) := by
          simp [dumpsCs]
        rw [hcons]
        simp only [parseVal]
        simp [parseStr_escape]
      | vlist xs =>
        cases xs with
        | nil => simp [dumpsCs, dumpsElems, parseVal]
        | cons x xs' =>
          obtain ⟨c0, cs0, hc0, hc0ne⟩ := dumpsElems_head x xs'
          have hf' : efuel (x :: xs') ≤ fuel := by
            have hp : pfuel (.vlist (x :: xs')) = 1 + efuel (x :: xs') := rfl
            omega
          have hE := IHe (x :: xs') rest (by simp) hj hf'
          have hcons : dumpsCs (.vlist (x :: xs')) ++ rest =
              '[' :: (dumpsElems (x :: xs') ++ ']' :: rest) := by
            simp [dumpsCs]
          rw [hcons]
          simp only [parseVal]
          have hhead : (dumpsElems (x :: xs') ++ ']' :: rest).head? = some c0 := by
            rw [hc0]; rfl
          simp [hhead, hc0ne, hE]
      | vtuple xs => simp [jsonable] at hj
      | vdict kvs =>
        cases kvs with
        | nil => simp [dumpsCs, dumpsFields, parseVal]
        | cons f fs =>
          obtain ⟨cs0, hc0⟩ := dumpsFields_head f fs
          have hf' : ffuel (f :: fs) ≤ fuel := by
            have hp : pfuel (.vdict (f :: fs)) = 1 + ffuel (f :: fs) := rfl
            omega
          have hF := IHf (f :: fs) rest (by simp) hj hf'
          have hcons : dumpsCs (.vdict (f :: fs)) ++ rest =
              '{' :: (dumpsFields (f :: fs) ++ '}' :: rest) := by
            simp [dumpsCs]
          rw [hcons]
          simp only [parseVal]
          have hhead : (dumpsFields (f :: fs) ++ '}' :: rest).head? = some '"' := by
            rw [hc0]; rfl
          simp [hhead, hF]
    · -- elements
      intro xs rest hne hj hf
      cases xs with
      | nil => exact absurd rfl hne
      | cons x xs' =>
        simp only [jsonableList, Bool.and_eq_true] at hj
        cases xs' with
        | nil =>
          have hfx : pfuel x ≤ fuel := by
            have he1 : efuel [x] = 1 + max (pfuel x) (efuel []) := rfl
            have he2 : efuel ([] : List PyVal) = 1 := rfl
            omega
          have hV := IHv x (']' :: rest) hj.1 hfx rfl
          have hcons : dumpsElems [x] ++ ']' :: rest = dumpsCs x ++ ']' :: rest := rfl
          rw [parseElems, hcons, hV]
          rfl
        | cons y r =>
          have hfx : pfuel x ≤ fuel := by
            have he1 : efuel (x :: y :: r) =
              1 + max (pfuel x) (efuel (y :: r)) := rfl
            omega
          have hfyr : efuel (y :: r) ≤ fuel := by
            have he1 : efuel (x :: y :: r) =
              1 + max (pfuel x) (efuel (y :: r)) := rfl
            omega
          have hV := IHv x (',' :: (dumpsElems (y :: r) ++ ']' :: rest))
            hj.1 hfx rfl
          have hE := IHe (y :: r) rest (by simp) hj.2 hfyr
          have hcons : dumpsElems (x :: y :: r) ++ ']' :: rest =
              dumpsCs x ++ ',' :: (dumpsElems (y :: r) ++ ']' :: rest) := by
            rw [dumpsElems, List.append_assoc, List.cons_append]
          rw [parseElems, hcons, hV]
          simp [hE]
    · -- fields
      intro kvs rest hne hj hf
      cases kvs with
      | nil => exact absurd rfl hne
      | cons f fs =>
        obtain ⟨k, v⟩ := f
        simp only [jsonableKVs, Bool.and_eq_true] at hj
        cases fs with
        | nil =>
          have hfv : pfuel v ≤ fuel := by
            have he1 : ffuel [(k, v)] = 1 + max (pfuel v) (ffuel []) := rfl
            have he2 : ffuel ([] : List (String × PyVal)) = 1 := rfl
            omega
          have hV := IHv v ('}' :: rest) hj.1 hfv rfl
          have hcons : dumpsFields [(k, v)] ++ '}' :: rest =
              '"' :: (escStr k.data ++ '"' :: (':' :: (dumpsCs v ++ '}' :: rest))) := by
            rw [dumpsFields]
            simp [List.append_assoc]
          rw [hcons]
          simp only [parseFields]
          simp [parseStr_escape, hV]
        | cons f2 r =>
          have hfv : pfuel v ≤ fuel := by
            have he1 : ffuel ((k, v) :: f2 :: r) =
              1 + max (pfuel v) (ffuel (f2 :: r)) := rfl
            omega
          have hfr : ffuel (f2 :: r) ≤ fuel := by
            have he1 : ffuel ((k, v) :: f2 :: r) =
              1 + max (pfuel v) (ffuel (f2 :: r)) := rfl
            omega
          have hV := IHv v (',' :: (dumpsFields (f2 :: r) ++ '}' :: rest))
            hj.1 hfv rfl
          have hF := IHf (f2 :: r) rest (by simp) hj.2 hfr
          have hcons : dumpsFields ((k, v) :: f2 :: r) ++ '}' :: rest =
              '"' :: (escStr k.data ++ '"' :: (':' ::
                (dumpsCs v ++ ',' :: (dumpsFields (f2 :: r) ++ '}' :: rest)))) := by
            rw [dumpsFields]
            simp [List.append_assoc]
          rw [hcons]
          simp only [parseFields]
          simp [parseStr_escape, hV, hF]

/-! ## Serialization round trip: fuel bounds and the final theorems -/

mutual
theorem pfuel_le : ∀ v : PyVal, pfuel v ≤ (dumpsCs v).length + 1
  | .vnone => by simp [pfuel]
  | .vbool b => by cases b <;> simp [pfuel]
  | .vint n => by simp [pfuel]
  | .vstr s => by simp [pfuel]
  | .vtuple xs => by simp [pfuel]
  | .vlist [] => by simp [pfuel]
  | .vlist (x :: xs) => by
    have h := efuel_le (x :: xs)
    have hp : pfuel (.vlist (x :: xs)) = 1 + efuel (x :: xs) := rfl
    have hlen : (dumpsCs (.vlist (x :: xs))).length =
        (dumpsElems (x :: xs)).length + 2 := by
      simp [dumpsCs]
    omega
  | .vdict [] => by simp [pfuel]
  | .vdict (f :: fs) => by
    have h := ffuel_le (f :: fs)
    have hp : pfuel (.vdict (f :: fs)) = 1 + ffuel (f :: fs) := rfl
    have hlen : (dumpsCs (.vdict (f :: fs))).length =
        (dumpsFields (f :: fs)).length + 2 := by
      simp [dumpsCs]
    omega

theorem efuel_le : ∀ xs : List PyVal, efuel xs ≤ (dumpsElems xs).length + 2
  | [] => by simp [efuel]
  | [x] => by
    have h := pfuel_le x
    have he : efuel [x] = 1 + max (pfuel x) (efuel []) := rfl
    have he2 : efuel ([] : List PyVal) = 1 := rfl
    have hlen : dumpsElems [x] = dumpsCs x := rfl
    rw [he, he2, hlen]
    omega
  | x :: y :: r => by
    have h1 := pfuel_le x
    have h2 := efuel_le (y :: r)
    have he : efuel (x :: y :: r) = 1 + max (pfuel x) (efuel (y :: r)) := rfl
    have hlen : (dumpsElems (x :: y :: r)).length =
        (dumpsCs x).length + 1 + (dumpsElems (y :: r)).length := by
      rw [dumpsElems]
      simp
      omega
    omega

theorem ffuel_le : ∀ kvs : List (String × PyVal),
    ffuel kvs ≤ (dumpsFields kvs).length + 2
  | [] => by simp [ffuel]
  | [(k, v)] => by
    have h := pfuel_le v
    have he : ffuel [(k, v)] = 1 + max (pfuel v) (ffuel []) := rfl
    have he2 : ffuel ([] : List (String × PyVal)) = 1 := rfl
    have hlen : (dumpsFields [(k, v)]).length =
        (escStr k.data).length + (dumpsCs v).length + 3 := by
      rw [dumpsFields]
      simp
      omega
    omega
  | (k, v) :: f2 :: r => by
    have h1 := pfuel_le v
    have h2 := ffuel_le (f2 :: r)
    have he : ffuel ((k, v) :: f2 :: r) =
        1 + max (pfuel v) (ffuel (f2 :: r)) := rfl
    have hlen : (dumpsFields ((k, v) :: f2 :: r)).length =
        (escStr k.data).length + (dumpsCs v).length +
          (dumpsFields (f2 :: r)).length + 4 := by
      rw [dumpsFields]
      simp
      omega
    omega
end

/-- Modelled from the spec: `json.loads (json.dumps v)` recovers `v` for
every value representable in the serialization form. -/
theorem loads_dumps (v : PyVal) (hv : jsonable v = true) :
    loads (dumps v) = some v := by
  have hb := pfuel_le v
  have hp := (parse_dumps_all ((dumpsCs v).length + 1)).1 v [] hv hb rfl
  rw [List.append_nil] at hp
  have hp' : parseVal ((dumps v).data.length + 1) (dumps v).data =
      some (v, []) := hp
  unfold loads
  rw [hp']

/-! ## Claim C3 -/

/-- Claim C3: the serialization codec round-trips — for every structured
value representable in the serialization form,
`decode(encode(("", v))) == ("", v)`; concretely, encoding
`("", {"a": 1})` yields tag `"json"` with the compact text `{"a":1}`, and
decoding `("json", "{\"a\":1}")` yields `("", {"a": 1})`. -/
theorem json_codec_roundtrip (v : PyVal) (hv : jsonable v = true) :
    jsonDecode (jsonEncode ("", v)) = some ("", v) ∧
    jsonEncode ("", .vdict [("a", .vint 1)]) = ("json", .vstr "\x7b\"a\":1\x7d") ∧
    jsonDecode ("json", .vstr "\x7b\"a\":1\x7d") = some ("", .vdict [("a", .vint 1)]) := by
  refine ⟨?_, rfl, rfl⟩
  show jsonDecode (composeTag "json" "", .vstr (dumps v)) = _
  rw [composeTag_empty]
  simp [jsonDecode, swith_self, loads_dumps v hv,
    (show afterUnderscore "json" = "" from rfl)]

/-- Witness for C3 at the value `{"a": 1}`. -/
theorem json_codec_roundtrip_witness :
    jsonDecode (jsonEncode ("", .vdict [("a", .vint 1)])) =
      some ("", .vdict [("a", .vint 1)]) :=
  (json_codec_roundtrip (.vdict [("a", .vint 1)]) rfl).1

end Taurus
